import Mathlib

/-!
Verification development for the DocChat RAG pipeline.

Shallow embedding of the core algorithms of the repository:
chunking (src/lib/chunking.ts, re-exported through src/lib/fileVectordb.ts),
the vector store operations (src/lib/fileVectordb.ts), the query classifier
and retrieval orchestration of the chat routes (src/app/api/chat/route.ts and
the streaming SSE variant), the bounded tool-call loop, and the SSE event
stream shape.

Modelling conventions:
- Strings of text being chunked are `List Char`; `text.slice(s, e)` becomes
  `(text.drop s).take (e - s)`.
- JavaScript numbers used as vector components are modelled as `ℝ`
  (`Math.sqrt` becomes `Real.sqrt`); array indices and counters are `Nat`.
- Functions that can `throw` return `Except String`.
- External collaborators (the embedding provider, the OpenAI chat model and
  the web search) are parameters: an embedding function
  `List Char → Option (List ℝ)` (with `none` for a failed embedding call)
  and response oracles for the model rounds.
-/

namespace DocChat

/-! ## Chunker (src/lib/chunking.ts, `chunkText`) -/

/-- A chunk as produced by `chunkText`. -/
structure TextChunk where
  text : List Char
  startIndex : Nat
  endIndex : Nat
  chunkIndex : Nat
deriving DecidableEq, Repr

/-- The next value of `startIndex` computed at the end of one loop iteration of
`chunkText`: `nextStartIndex = endIndex - overlap`, forced to `endIndex` when
that would not strictly advance. (`endIndex` is `min (s + chunkSize) text.length`;
in JavaScript `endIndex - overlap` may be negative, in which case it is `≤ s`
and the `startIndex = endIndex` branch is taken, which truncated `Nat`
subtraction reproduces.) -/
def nextStart (text : List Char) (chunkSize overlap s : Nat) : Nat :=
  if min (s + chunkSize) text.length - overlap ≤ s then min (s + chunkSize) text.length
  else min (s + chunkSize) text.length - overlap

/-- The `while` loop of `chunkText`, with the remaining iteration budget
(`maxChunks - iterations`) as explicit fuel: the loop runs while
`startIndex < text.length && iterations < maxChunks`. -/
def chunkLoop (text : List Char) (chunkSize overlap : Nat) (s i fuel : Nat) :
    List TextChunk :=
  if fuel = 0 then []
  else if s < text.length then
    let e := min (s + chunkSize) text.length
    let str := (text.drop s).take (e - s)
    let rest :=
      chunkLoop text chunkSize overlap (nextStart text chunkSize overlap s) (i + 1) (fuel - 1)
    if 0 < str.length then ⟨str, s, e, i⟩ :: rest else rest
  else []
termination_by fuel
decreasing_by omega

/-- The safety limit `maxChunks = Math.ceil(text.length / (chunkSize - overlap)) + 100`
computed by `chunkText` before entering the loop. -/
def maxChunksOf (text : List Char) (chunkSize overlap : Nat) : Nat :=
  (text.length + (chunkSize - overlap) - 1) / (chunkSize - overlap) + 100

/-- `chunkText(text, chunkSize = 1000, overlap = 200)`: empty input returns `[]`
before any validation; invalid parameters throw; otherwise the windowed loop
runs from `startIndex = 0`, `chunkIndex = 0` under the `maxChunks` iteration cap.
(The `overlap < 0` validation of the source cannot fire for `Nat` overlap.) -/
def chunkText (text : List Char) (chunkSize : Nat := 1000) (overlap : Nat := 200) :
    Except String (List TextChunk) :=
  if text.length = 0 then .ok []
  else if chunkSize = 0 then .error "chunkSize must be greater than 0"
  else if overlap ≥ chunkSize then
    .error "overlap must be less than chunkSize to prevent infinite loops"
  else .ok (chunkLoop text chunkSize overlap 0 0 (maxChunksOf text chunkSize overlap))

/-- The same loop without the iteration cap, by well-founded recursion on the
distance left to the end of the text: the reference against which we show the
cap of `chunkText` never truncates. -/
def chunkLoopWF (text : List Char) (chunkSize overlap : Nat) (hcs : 0 < chunkSize)
    (s i : Nat) : List TextChunk :=
  if h : s < text.length then
    let e := min (s + chunkSize) text.length
    let str := (text.drop s).take (e - s)
    let rest := chunkLoopWF text chunkSize overlap hcs (nextStart text chunkSize overlap s) (i + 1)
    if 0 < str.length then ⟨str, s, e, i⟩ :: rest else rest
  else []
termination_by text.length - s
decreasing_by
  have hlt : s < nextStart text chunkSize overlap s := by
    unfold nextStart; split <;> omega
  omega

/-- The sequence of `startIndex` values produced by `chunkText`, `none` when
`chunkText` throws. -/
def chunkStarts (text : List Char) (chunkSize overlap : Nat) : Option (List Nat) :=
  (chunkText text chunkSize overlap).toOption.map (List.map TextChunk.startIndex)

/-! ## Vector store (src/lib/fileVectordb.ts) -/

/-- A stored chunk row of the `document_chunks` table, also the shape returned
by `searchSimilarChunks` and `getAllDocumentChunks` (interface `DocumentChunk`). -/
structure DocumentChunk where
  id : String
  documentId : String
  documentName : String
  chunkIndex : Nat
  text : List Char
  startIndex : Nat
  endIndex : Nat
  vector : List ℝ

/-- The `normA`/`normB` accumulation loop of `cosineSimilarity`:
`norm += v[i] * v[i]` starting from 0. -/
noncomputable def normAcc (v : List ℝ) : ℝ :=
  v.foldl (fun acc x => acc + x * x) 0

/-- The `dotProduct` accumulation loop of `cosineSimilarity`:
`dot += a[i] * b[i]` starting from 0 (over the common length). -/
noncomputable def dotAcc (a b : List ℝ) : ℝ :=
  (a.zip b).foldl (fun acc p => acc + p.1 * p.2) 0

/-- The sum of squares of a vector, the closed form of `normAcc` used in
statements. -/
noncomputable def sumSq (v : List ℝ) : ℝ :=
  (v.map (fun x => x * x)).sum

/-- The arithmetic part of `cosineSimilarity` after the length check:
`denominator = sqrt(normA) * sqrt(normB)`; result 0 if the denominator is 0,
otherwise `dotProduct / denominator`. -/
noncomputable def cosineSimilarityVal (a b : List ℝ) : ℝ :=
  if Real.sqrt (normAcc a) * Real.sqrt (normAcc b) = 0 then 0
  else dotAcc a b / (Real.sqrt (normAcc a) * Real.sqrt (normAcc b))

/-- `cosineSimilarity(vecA, vecB)`: throws when the lengths differ, else the
normalized dot product with the zero-denominator guard. -/
noncomputable def cosineSimilarity (a b : List ℝ) : Except String ℝ :=
  if a.length ≠ b.length then .error "Vectors must have the same length"
  else .ok (cosineSimilarityVal a b)

/-- The candidate rows loaded by `searchSimilarChunks`: the `WHERE document_id
IN (...)` clause is added only when `documentIds` is supplied and non-empty. -/
def candidatesOf (docFilter : Option (List String)) (db : List DocumentChunk) :
    List DocumentChunk :=
  match docFilter with
  | some ids => if 0 < ids.length then db.filter (fun c => decide (c.documentId ∈ ids)) else db
  | none => db

/-- The `rows.map(row => {chunk, score})` step: scoring every candidate with
`cosineSimilarity(queryEmbedding, embedding)`; the first length mismatch throws
out of the whole search. -/
noncomputable def scoreChunks (qv : List ℝ) : List DocumentChunk →
    Except String (List (DocumentChunk × ℝ))
  | [] => .ok []
  | c :: rest =>
    match cosineSimilarity qv c.vector with
    | .error e => .error e
    | .ok s =>
      match scoreChunks qv rest with
      | .error e => .error e
      | .ok tl => .ok ((c, s) :: tl)

/-- The comparator `(a, b) => b.score - a.score` of the score sort: `a` stays
before `b` exactly when `b.score ≤ a.score`; `Array.prototype.sort` is stable,
modelled by a stable merge sort with this relation. -/
noncomputable def scoreDescLE (x y : DocumentChunk × ℝ) : Bool :=
  decide (y.2 ≤ x.2)

/-- `searchSimilarChunks` up to the final `slice(0, limit).map(fst)`: candidate
selection, the empty-rows early return, scoring and the stable descending sort. -/
noncomputable def searchScored (qv : List ℝ) (docFilter : Option (List String))
    (db : List DocumentChunk) : Except String (List (DocumentChunk × ℝ)) :=
  let candidates := candidatesOf docFilter db
  if candidates.length = 0 then .ok []
  else (scoreChunks qv candidates).map (fun scored => scored.mergeSort scoreDescLE)

/-- `searchSimilarChunks(query, limit = 5, documentIds?)`; the query string's
embedding (produced by the external embedding provider) is the parameter `qv`,
and the table contents are the parameter `db` in insertion order. -/
noncomputable def searchSimilarChunks (qv : List ℝ) (limit : Nat)
    (docFilter : Option (List String)) (db : List DocumentChunk) :
    Except String (List DocumentChunk) :=
  (searchScored qv docFilter db).map (fun sorted => (sorted.take limit).map Prod.fst)

/-- The `ORDER BY document_id, chunk_index` ordering of `getAllDocumentChunks`. -/
def docOrderLE (a b : DocumentChunk) : Bool :=
  decide (a.documentId < b.documentId ∨ (a.documentId = b.documentId ∧ a.chunkIndex ≤ b.chunkIndex))

/-- `getAllDocumentChunks(documentIds)`: empty id list returns `[]`; otherwise
all rows of those documents ordered by `(document_id, chunk_index)`. -/
def getAllDocumentChunks (documentIds : List String) (db : List DocumentChunk) :
    List DocumentChunk :=
  if documentIds.length = 0 then []
  else (db.filter (fun c => decide (c.documentId ∈ documentIds))).mergeSort docOrderLE

/-- Concatenation of a list of lists (the committed batches in order). -/
def listJoin {α : Type _} : List (List α) → List α
  | [] => []
  | l :: ls => l ++ listJoin ls

/-- The batching `for (let i = 0; i < chunks.length; i += batchSize)` with
`batchSize = 5` of `indexDocument`. -/
def batches5 {α : Type _} : List α → List (List α)
  | [] => []
  | x :: xs => ((x :: xs).take 5) :: batches5 ((x :: xs).drop 5)
termination_by l => l.length
decreasing_by
  simp only [List.length_drop, List.length_cons]
  omega

/-- The row built by `indexDocument` for one successfully embedded chunk:
`id = documentId + "_" + chunkIndex`. -/
def mkStored (documentId documentName : String) (ch : TextChunk) (v : List ℝ) :
    DocumentChunk :=
  ⟨documentId ++ "_" ++ toString ch.chunkIndex, documentId, documentName,
    ch.chunkIndex, ch.text, ch.startIndex, ch.endIndex, v⟩

/-- One batch of `indexDocument`: each chunk is embedded; a chunk whose
embedding call fails (`none`) is skipped (the inserted row list keeps the rest). -/
def embedBatch (embed : List Char → Option (List ℝ)) (documentId documentName : String)
    (batch : List TextChunk) : List DocumentChunk :=
  batch.filterMap (fun ch => (embed ch.text).map (mkStored documentId documentName ch))

/-- All rows inserted by `indexDocument` for a chunk list, batch by batch in
order. -/
def insertedChunks (embed : List Char → Option (List ℝ)) (documentId documentName : String)
    (chunks : List TextChunk) : List DocumentChunk :=
  listJoin ((batches5 chunks).map (embedBatch embed documentId documentName))

/-- `indexDocument(documentId, documentName, text)` acting on the table state
`db` (rows in insertion order): first `DELETE FROM document_chunks WHERE
document_id = ?`, then `chunkText(text, 1000, 200)` (a throw there leaves the
deletion committed), the empty-chunks early return, then the batched inserts. -/
def indexDocument (embed : List Char → Option (List ℝ)) (db : List DocumentChunk)
    (documentId documentName : String) (text : List Char) : List DocumentChunk :=
  let remaining := db.filter (fun c => !(c.documentId == documentId))
  match chunkText text 1000 200 with
  | .error _ => remaining
  | .ok chunks =>
    if chunks = [] then remaining
    else remaining ++ insertedChunks embed documentId documentName chunks

/-! ## Query classifier (`isGeneralQuestion` of the chat routes) -/

/-- ASCII lower-casing, the effect of `toLowerCase()` on the pattern alphabet. -/
def toLowerChar (c : Char) : Char :=
  if 'A' ≤ c ∧ c ≤ 'Z' then Char.ofNat (c.toNat + 32) else c

/-- The whitespace stripped by `trim()` (the characters that can occur here). -/
def isWsChar (c : Char) : Bool :=
  c == ' ' || c == '\t' || c == '\n' || c == '\r'

/-- `trim()`: whitespace removed from both ends. -/
def trimChars (s : List Char) : List Char :=
  ((s.dropWhile isWsChar).reverse.dropWhile isWsChar).reverse

/-- Does the text start with the given literal? -/
def litMatch : List Char → List Char → Bool
  | [], _ => true
  | _ :: _, [] => false
  | a :: as, b :: bs => a == b && litMatch as bs

/-- Match a sequence of alternative groups (each group a set of literal
alternatives) at the start of the text; this is the language of each of the
classifier's regular expressions, which are concatenations of literals and
flat alternations. -/
def matchSeq : List (List String) → List Char → Bool
  | [], _ => true
  | g :: gs, s => g.any (fun alt => litMatch alt.toList s && matchSeq gs (s.drop alt.toList.length))

/-- Unanchored regex `test`: match the group sequence at some position. -/
def matchFrom (p : List (List String)) : List Char → Bool
  | [] => matchSeq p []
  | c :: t => matchSeq p (c :: t) || matchFrom p t

/-- The eight `generalPatterns` regexes of `isGeneralQuestion`, as group
sequences; `contents?` is the two alternatives `contents`/`content`. -/
def generalPatterns : List (List (List String)) :=
  [ [["what "], ["does", "is", "are", "do", "did"]],
    [["what "], ["does", "is", "are", "do", "did"], [" "], ["this", "that", "the"], [" "],
      ["document", "file", "text"]],
    [["what "], ["does", "is", "are", "do", "did"], [" "], ["this", "that", "the"], [" "],
      ["document", "file", "text"], [" "], ["contain", "say", "include", "discuss", "cover", "describe"]],
    [["summarize", "summary", "summarise"]],
    [["what "], ["is", "are"], [" "], ["in", "inside", "the content of", "the contents of"]],
    [["tell me", "describe", "explain"], [" "], ["what", "about"], [" "], ["this", "that", "the"],
      [" "], ["document", "file"]],
    [["overview", "contents", "content"], [" "], ["of", "about"], [" "], ["this", "that", "the"],
      [" "], ["document", "file"]],
    [["what "], ["is", "are"], [" "], ["this", "that", "the"], [" "], ["document", "file"],
      [" "], ["about", "on"]] ]

/-- `isGeneralQuestion(question)`: lower-case, trim, and test every pattern
(the source's `/i` flag is absorbed by the lower-casing). -/
def isGeneralQuestion (question : List Char) : Bool :=
  let lowerQuestion := trimChars (question.map toLowerChar)
  generalPatterns.any (fun p => matchFrom p lowerQuestion)

/-! ## Retrieval orchestration (the context block of `POST /api/chat`) -/

/-- The `contextChunks` computed by the chat route: nothing without document
ids; for a general question a `k = 25` search with the all-chunks fallback
(capped at 50) when fewer than 10 chunks come back; otherwise a search with the
caller's `limit`; a search failure is caught and leaves the context empty. -/
noncomputable def retrieveContextChunks (question : List Char) (qv : List ℝ) (limit : Nat) :
    Option (List String) → List DocumentChunk → List DocumentChunk
  | none, _ => []
  | some ids, db =>
    if 0 < ids.length then
      if isGeneralQuestion question then
        match searchSimilarChunks qv 25 (some ids) db with
        | .error _ => []
        | .ok cs => if cs.length < 10 then (getAllDocumentChunks ids db).take 50 else cs
      else
        match searchSimilarChunks qv limit (some ids) db with
        | .error _ => []
        | .ok cs => cs
    else []

/-! ## Tool-call loop of the non-streaming chat route (src/app/api/chat/route.ts) -/

/-- One tool call of an assistant message. -/
structure ToolCall where
  id : String
  name : String
  args : String
deriving DecidableEq

/-- One chat-completion response message: optional content and tool calls. -/
structure ChatMsg where
  content : Option String
  toolCalls : List ToolCall
deriving DecidableEq

/-- The answer used when a round returns no message or empty content. -/
def apologyMsg : String := "I apologize, but I could not generate an answer."

/-- The fixed fallback answer set after the loop when the round limit was
reached with no answer. -/
def fallbackAnswer : String :=
  "I apologize, but I encountered an issue while processing your request. Please try again."

/-- `maxIterations = 5`. -/
def maxIterations : Nat := 5

/-- `message.content || apology`: JavaScript `||` treats both `null` and the
empty string as falsy. -/
def contentOrApology (c : Option String) : String :=
  match c with
  | some s => if s = "" then apologyMsg else s
  | none => apologyMsg

/-- The `while (iterationCount < maxIterations)` loop of the non-streaming
route; `it` is the current `iterationCount`, the second argument the remaining
budget `maxIterations - it`, and `oracle n` the message of the n-th
chat-completion call (`none` when `completion.choices[0]?.message` is absent).
Returns the answer (`""` when the loop exhausts its budget) and the final
`iterationCount`, the number of chat-completion calls issued. -/
def runChatAux (oracle : Nat → Option ChatMsg) (it : Nat) : Nat → String × Nat
  | 0 => ("", it)
  | r + 1 =>
    match oracle (it + 1) with
    | none => (apologyMsg, it + 1)
    | some m =>
      if m.toolCalls = [] then (contentOrApology m.content, it + 1)
      else runChatAux oracle (it + 1) r

/-- The loop followed by the fallback check
`if (iterationCount >= maxIterations && !answer)`. -/
def runChat (oracle : Nat → Option ChatMsg) : String × Nat :=
  let r := runChatAux oracle 0 maxIterations
  if maxIterations ≤ r.2 ∧ r.1 = "" then (fallbackAnswer, r.2) else r

/-! ## SSE streaming route (the streaming `POST` handler) -/

/-- The event kinds sent with `sendSSE`, plus `close` marking
`controller.close()`. -/
inductive SSEEvent where
  | toolStart
  | toolEnd
  | thinking
  | content
  | done
  | error
  | close
deriving DecidableEq, Repr

/-- The outcome of one `search_web` tool call of a round: the argument JSON
fails to parse (the catch emits only `tool_end`), the search returns (events
`tool_start` then `tool_end`, whether or not results are useful), the search
throws (caught: same two events), or the tool call has another name (ignored:
no events). -/
inductive WebCallResult where
  | parseFail
  | searchOk
  | searchFail
  | otherTool
deriving DecidableEq

/-- The events emitted while executing one tool call. -/
def webCallEvents : WebCallResult → List SSEEvent
  | .parseFail => [.toolEnd]
  | .searchOk => [.toolStart, .toolEnd]
  | .searchFail => [.toolStart, .toolEnd]
  | .otherTool => []

/-- The outcome of one streamed chat-completion round: the stream throws after
some content deltas (propagating to the outer catch), or it completes with
content deltas and accumulated tool calls. -/
inductive RoundResult where
  | crash (deltas : List String)
  | reply (deltas : List String) (tools : List WebCallResult)

/-- One `content` event per non-empty content delta, in arrival order. -/
def contentEvents (deltas : List String) : List SSEEvent :=
  (deltas.filter (fun s => !(s == ""))).map (fun _ => .content)

/-- What the round loop produced: its events, whether it escaped with an
exception, and how many chat-completion calls it issued. -/
structure RoundTrace where
  events : List SSEEvent
  crashed : Bool
  calls : Nat

/-- The `while (iterationCount < maxIterations)` loop of the streaming route:
`it` is the current `iterationCount`, the second argument the remaining budget;
a `thinking` event precedes the first call only; tool rounds append their tool
events and loop, a tool-free round ends the loop. -/
def chatRounds (oracle : Nat → RoundResult) (it : Nat) : Nat → RoundTrace
  | 0 => ⟨[], false, 0⟩
  | r + 1 =>
    let think : List SSEEvent := if it + 1 = 1 then [.thinking] else []
    match oracle (it + 1) with
    | .crash ds => ⟨think ++ contentEvents ds, true, 1⟩
    | .reply ds tools =>
      if tools = [] then ⟨think ++ contentEvents ds, false, 1⟩
      else
        let rest := chatRounds oracle (it + 1) r
        ⟨think ++ contentEvents ds ++ listJoin (tools.map webCallEvents) ++ rest.events,
          rest.crashed, rest.calls + 1⟩

/-- One request to the streaming route: whether `request.json()` succeeds,
whether the question field is a non-empty string, the document ids, whether
`getOpenAIClient()` succeeds, and the round oracle. (The document-search block
emits `tool_start` then `tool_end` whatever the search outcome — found, empty
or caught error — so its outcome needs no parameter.) -/
structure SSERequest where
  bodyOk : Bool
  questionOk : Bool
  documentIds : List String
  clientOk : Bool
  oracle : Nat → RoundResult

/-- The full event trace of the streaming handler, `controller.close()`
included: validation failures and exceptions reach the outer catch, which sends
one `error` then closes; otherwise the document-search events, the round-loop
events, and either the single `done` (loop completed, round budget exhausted
included) or the single `error` (a round crashed), then close. -/
def sseTrace (r : SSERequest) : List SSEEvent :=
  if r.bodyOk = false then [.error, .close]
  else if r.questionOk = false then [.error, .close]
  else if r.clientOk = false then
    (if 0 < r.documentIds.length then [.toolStart, .toolEnd] else []) ++ [.error, .close]
  else
    (if 0 < r.documentIds.length then [.toolStart, .toolEnd] else []) ++
      (chatRounds r.oracle 0 5).events ++
      (if (chatRounds r.oracle 0 5).crashed then [.error, .close] else [.done, .close])

/-! ## Theorems -/

theorem nextStart_gt (text : List Char) (chunkSize overlap s : Nat) (hcs : 0 < chunkSize)
    (h : s < text.length) : s < nextStart text chunkSize overlap s := by
  unfold nextStart; split <;> omega

theorem nextStart_le (text : List Char) (chunkSize overlap s : Nat) :
    nextStart text chunkSize overlap s ≤ min (s + chunkSize) text.length := by
  unfold nextStart; split <;> omega

theorem chunkLoopWF_nil (text : List Char) (chunkSize overlap : Nat) (hcs : 0 < chunkSize)
    (s i : Nat) (h : ¬ s < text.length) :
    chunkLoopWF text chunkSize overlap hcs s i = [] := by
  rw [chunkLoopWF]; simp [h]

theorem slice_length (text : List Char) (chunkSize : Nat) (s : Nat) (hcs : 0 < chunkSize)
    (h : s < text.length) :
    ((text.drop s).take (min (s + chunkSize) text.length - s)).length
      = min (s + chunkSize) text.length - s := by
  simp only [List.length_take, List.length_drop]
  omega

theorem chunkLoopWF_cons (text : List Char) (chunkSize overlap : Nat) (hcs : 0 < chunkSize)
    (s i : Nat) (h : s < text.length) :
    chunkLoopWF text chunkSize overlap hcs s i =
      ⟨(text.drop s).take (min (s + chunkSize) text.length - s), s,
          min (s + chunkSize) text.length, i⟩ ::
        chunkLoopWF text chunkSize overlap hcs (nextStart text chunkSize overlap s) (i + 1) := by
  rw [chunkLoopWF]
  have hpos : 0 < ((text.drop s).take (min (s + chunkSize) text.length - s)).length := by
    rw [slice_length text chunkSize s hcs h]; omega
  simp [h, hpos]
  omega

theorem chunkLoop_of_stop (text : List Char) (chunkSize overlap : Nat) (s i fuel : Nat)
    (h : ¬ s < text.length) : chunkLoop text chunkSize overlap s i fuel = [] := by
  rw [chunkLoop]
  by_cases hf : fuel = 0 <;> simp [hf, h]

/-- With fuel at least `k + 2`, where `k` window advances of `chunkSize - overlap`
suffice to pass the end of the text, the capped loop computes the uncapped loop:
the fuel never runs out. -/
theorem chunkLoop_eq_chunkLoopWF (text : List Char) (chunkSize overlap : Nat)
    (hcs : 0 < chunkSize) (hov : overlap < chunkSize) :
    ∀ k s i fuel, text.length ≤ s + overlap + k * (chunkSize - overlap) →
      k + 2 ≤ fuel →
      chunkLoop text chunkSize overlap s i fuel = chunkLoopWF text chunkSize overlap hcs s i := by
  intro k
  induction k with
  | zero =>
    intro s i fuel hinv hf
    by_cases h : s < text.length
    · have hf0 : ¬ fuel = 0 := by omega
      rw [chunkLoop, chunkLoopWF_cons text chunkSize overlap hcs s i h]
      have hpos : 0 < ((text.drop s).take (min (s + chunkSize) text.length - s)).length := by
        rw [slice_length text chunkSize s hcs h]; omega
      have hnext : ¬ nextStart text chunkSize overlap s < text.length := by
        unfold nextStart; split <;> omega
      simp only [hf0, if_false, h, if_true, hpos]
      rw [chunkLoop_of_stop text chunkSize overlap _ _ _ hnext,
        chunkLoopWF_nil text chunkSize overlap hcs _ _ hnext]
    · rw [chunkLoop_of_stop text chunkSize overlap s i fuel h,
        chunkLoopWF_nil text chunkSize overlap hcs s i h]
  | succ k ih =>
    intro s i fuel hinv hf
    by_cases h : s < text.length
    · have hf0 : ¬ fuel = 0 := by omega
      rw [chunkLoop, chunkLoopWF_cons text chunkSize overlap hcs s i h]
      have hpos : 0 < ((text.drop s).take (min (s + chunkSize) text.length - s)).length := by
        rw [slice_length text chunkSize s hcs h]; omega
      have hmul : (k + 1) * (chunkSize - overlap) = k * (chunkSize - overlap) + (chunkSize - overlap) := by
        ring
      have hinv2 : text.length ≤ nextStart text chunkSize overlap s + overlap + k * (chunkSize - overlap) := by
        unfold nextStart; split <;> omega
      simp only [hf0, if_false, h, if_true, hpos]
      rw [ih (nextStart text chunkSize overlap s) (i + 1) (fuel - 1) hinv2 (by omega)]
    · rw [chunkLoop_of_stop text chunkSize overlap s i fuel h,
        chunkLoopWF_nil text chunkSize overlap hcs s i h]

/-- The ceiling `k = ⌈len / (chunkSize - overlap)⌉` used in `maxChunks` indeed
covers the text. -/
theorem maxChunks_covers (text : List Char) (chunkSize overlap : Nat)
    (hov : overlap < chunkSize) :
    text.length ≤ 0 + overlap +
      ((text.length + (chunkSize - overlap) - 1) / (chunkSize - overlap)) * (chunkSize - overlap) := by
  have hd : 0 < chunkSize - overlap := by omega
  have := Nat.div_add_mod (text.length + (chunkSize - overlap) - 1) (chunkSize - overlap)
  have hm := Nat.mod_lt (text.length + (chunkSize - overlap) - 1) hd
  have hcomm : (chunkSize - overlap) *
        ((text.length + (chunkSize - overlap) - 1) / (chunkSize - overlap))
      = ((text.length + (chunkSize - overlap) - 1) / (chunkSize - overlap)) * (chunkSize - overlap) := by
    ring
  omega

/-- For valid parameters, `chunkText` succeeds and its result is the uncapped loop. -/
theorem chunkText_eq_WF (text : List Char) (chunkSize overlap : Nat)
    (hcs : 0 < chunkSize) (hov : overlap < chunkSize) :
    chunkText text chunkSize overlap = .ok (chunkLoopWF text chunkSize overlap hcs 0 0) := by
  unfold chunkText
  by_cases h0 : text.length = 0
  · have : ¬ (0 : Nat) < text.length := by omega
    rw [chunkLoopWF_nil text chunkSize overlap hcs 0 0 this]
    simp [h0]
  · have h1 : ¬ chunkSize = 0 := by omega
    have h2 : ¬ overlap ≥ chunkSize := by omega
    simp only [h0, if_false, h1, h2]
    rw [chunkLoop_eq_chunkLoopWF text chunkSize overlap hcs hov
      ((text.length + (chunkSize - overlap) - 1) / (chunkSize - overlap)) 0 0 _
      (maxChunks_covers text chunkSize overlap hov) (by unfold maxChunksOf; omega)]

/-- Every chunk emitted by the loop from state `s` starts at or after `s`,
starts strictly inside the text, has `endIndex = min (startIndex + chunkSize) len`,
and carries exactly the slice `text[startIndex, endIndex)`. -/
theorem chunkLoopWF_mem (text : List Char) (chunkSize overlap : Nat) (hcs : 0 < chunkSize) :
    ∀ n s i, text.length - s ≤ n →
      ∀ c ∈ chunkLoopWF text chunkSize overlap hcs s i,
        s ≤ c.startIndex ∧ c.startIndex < text.length ∧
          c.endIndex = min (c.startIndex + chunkSize) text.length ∧
          c.text = (text.drop c.startIndex).take (c.endIndex - c.startIndex) := by
  intro n
  induction n with
  | zero =>
    intro s i hle c hc
    have h : ¬ s < text.length := by omega
    rw [chunkLoopWF_nil text chunkSize overlap hcs s i h] at hc
    cases hc
  | succ n ih =>
    intro s i hle c hc
    by_cases h : s < text.length
    · rw [chunkLoopWF_cons text chunkSize overlap hcs s i h] at hc
      rcases List.mem_cons.mp hc with rfl | hc
      · refine ⟨le_refl _, h, rfl, rfl⟩
      · have hgt := nextStart_gt text chunkSize overlap s hcs h
        have := ih (nextStart text chunkSize overlap s) (i + 1) (by omega) c hc
        exact ⟨by omega, this.2.1, this.2.2.1, this.2.2.2⟩
    · rw [chunkLoopWF_nil text chunkSize overlap hcs s i h] at hc
      cases hc

/-- The first chunk emitted by the loop from a state inside the text starts at
that state. -/
theorem chunkLoopWF_head (text : List Char) (chunkSize overlap : Nat) (hcs : 0 < chunkSize)
    (s i : Nat) (h : s < text.length) :
    ∃ c rest, chunkLoopWF text chunkSize overlap hcs s i = c :: rest ∧ c.startIndex = s := by
  rw [chunkLoopWF_cons text chunkSize overlap hcs s i h]
  exact ⟨_, _, rfl, rfl⟩

/-- `startIndex` strictly increases between consecutive emitted chunks. -/
theorem chunkLoopWF_chain (text : List Char) (chunkSize overlap : Nat) (hcs : 0 < chunkSize) :
    ∀ n s i, text.length - s ≤ n →
      List.Chain' (fun a b : TextChunk => a.startIndex < b.startIndex)
        (chunkLoopWF text chunkSize overlap hcs s i) := by
  intro n
  induction n with
  | zero =>
    intro s i hle
    have h : ¬ s < text.length := by omega
    rw [chunkLoopWF_nil text chunkSize overlap hcs s i h]
    exact List.chain'_nil
  | succ n ih =>
    intro s i hle
    by_cases h : s < text.length
    · rw [chunkLoopWF_cons text chunkSize overlap hcs s i h]
      have hgt := nextStart_gt text chunkSize overlap s hcs h
      refine List.chain'_cons'.mpr ⟨?_, ih (nextStart text chunkSize overlap s) (i + 1) (by omega)⟩
      intro y hy
      by_cases hn : nextStart text chunkSize overlap s < text.length
      · obtain ⟨c, rest, hcr, hcs0⟩ :=
          chunkLoopWF_head text chunkSize overlap hcs (nextStart text chunkSize overlap s) (i + 1) hn
        rw [hcr] at hy
        simp only [List.head?_cons, Option.mem_def, Option.some_inj] at hy
        subst hy
        simp only [hcs0]
        omega
      · rw [chunkLoopWF_nil text chunkSize overlap hcs _ _ hn] at hy
        cases hy
    · rw [chunkLoopWF_nil text chunkSize overlap hcs s i h]
      exact List.chain'_nil

/-- Every text position from the loop state onward is covered by some emitted chunk. -/
theorem chunkLoopWF_cover (text : List Char) (chunkSize overlap : Nat) (hcs : 0 < chunkSize) :
    ∀ n s i p, text.length - s ≤ n → s ≤ p → p < text.length →
      ∃ c ∈ chunkLoopWF text chunkSize overlap hcs s i,
        c.startIndex ≤ p ∧ p < c.endIndex := by
  intro n
  induction n with
  | zero => intro s i p hle hsp hp; omega
  | succ n ih =>
    intro s i p hle hsp hp
    have h : s < text.length := by omega
    rw [chunkLoopWF_cons text chunkSize overlap hcs s i h]
    by_cases hpe : p < min (s + chunkSize) text.length
    · exact ⟨_, List.mem_cons_self _ _, hsp, hpe⟩
    · have hgt := nextStart_gt text chunkSize overlap s hcs h
      have hle2 := nextStart_le text chunkSize overlap s
      obtain ⟨c, hcmem, hc⟩ := ih (nextStart text chunkSize overlap s) (i + 1) p (by omega)
        (by omega) hp
      exact ⟨c, List.mem_cons_of_mem _ hcmem, hc⟩

/-- The last chunk emitted by the loop from a state inside the text ends at the
end of the text. -/
theorem chunkLoopWF_last (text : List Char) (chunkSize overlap : Nat) (hcs : 0 < chunkSize) :
    ∀ n s i, text.length - s ≤ n → s < text.length →
      ∃ c, (chunkLoopWF text chunkSize overlap hcs s i).getLast? = some c ∧
        c.endIndex = text.length := by
  intro n
  induction n with
  | zero => intro s i hle hs; omega
  | succ n ih =>
    intro s i hle hs
    rw [chunkLoopWF_cons text chunkSize overlap hcs s i hs]
    by_cases hn : nextStart text chunkSize overlap s < text.length
    · have hgt := nextStart_gt text chunkSize overlap s hcs hs
      obtain ⟨c, hlast, hcend⟩ := ih (nextStart text chunkSize overlap s) (i + 1) (by omega) hn
      refine ⟨c, ?_, hcend⟩
      obtain ⟨c0, rest, hcr, -⟩ :=
        chunkLoopWF_head text chunkSize overlap hcs (nextStart text chunkSize overlap s) (i + 1) hn
      rw [hcr] at hlast ⊢
      rw [List.getLast?_cons_cons]
      exact hlast
    · rw [chunkLoopWF_nil text chunkSize overlap hcs _ _ hn]
      refine ⟨_, rfl, ?_⟩
      show min (s + chunkSize) text.length = text.length
      revert hn
      unfold nextStart
      split <;> omega

/-- C1: for every text and valid parameters, `chunkText` returns a result (the
safety cap never truncates: any fuel at least `maxChunks` yields the same
list), every returned span is non-empty, spans at most `chunkSize` characters,
and `startIndex` strictly increases between consecutive chunks. -/
theorem chunkText_total_bounded (text : List Char) (chunkSize overlap : Nat)
    (hcs : 0 < chunkSize) (hov : overlap < chunkSize) :
    ∃ l, chunkText text chunkSize overlap = .ok l ∧
      (∀ extra, chunkLoop text chunkSize overlap 0 0 (maxChunksOf text chunkSize overlap + extra) = l) ∧
      (∀ c ∈ l, c.text ≠ [] ∧ c.endIndex - c.startIndex ≤ chunkSize) ∧
      List.Chain' (fun a b : TextChunk => a.startIndex < b.startIndex) l := by
  refine ⟨chunkLoopWF text chunkSize overlap hcs 0 0,
    chunkText_eq_WF text chunkSize overlap hcs hov, ?_, ?_, ?_⟩
  · intro extra
    exact chunkLoop_eq_chunkLoopWF text chunkSize overlap hcs hov
      ((text.length + (chunkSize - overlap) - 1) / (chunkSize - overlap)) 0 0 _
      (maxChunks_covers text chunkSize overlap hov) (by unfold maxChunksOf; omega)
  · intro c hc
    obtain ⟨-, hlt, hend, htext⟩ :=
      chunkLoopWF_mem text chunkSize overlap hcs text.length 0 0 (by omega) c hc
    constructor
    · have : c.text.length = min (c.startIndex + chunkSize) text.length - c.startIndex := by
        rw [htext, hend, slice_length text chunkSize c.startIndex hcs hlt]
      have hpos : 0 < c.text.length := by omega
      exact List.length_pos.mp hpos
    · omega
  · exact chunkLoopWF_chain text chunkSize overlap hcs text.length 0 0 (by omega)

/-- Witness for C1 at a concrete text with `chunkSize = 5`, `overlap = 2`. -/
theorem chunkText_total_bounded_witness :
    ∃ l, chunkText "spec and proof text".toList 5 2 = .ok l ∧
      (∀ extra, chunkLoop "spec and proof text".toList 5 2 0 0
          (maxChunksOf "spec and proof text".toList 5 2 + extra) = l) ∧
      (∀ c ∈ l, c.text ≠ [] ∧ c.endIndex - c.startIndex ≤ 5) ∧
      List.Chain' (fun a b : TextChunk => a.startIndex < b.startIndex) l :=
  chunkText_total_bounded "spec and proof text".toList 5 2 (by norm_num) (by norm_num)

/-- C10: for every non-empty text and valid parameters, every chunk's text is
the slice `text[startIndex, endIndex)` with
`endIndex = min (startIndex + chunkSize) text.length`, the last chunk ends at
the end of the text, and every character position is covered by some chunk. -/
theorem chunkText_slices_cover (text : List Char) (chunkSize overlap : Nat)
    (hne : text ≠ []) (hcs : 0 < chunkSize) (hov : overlap < chunkSize) :
    ∃ l, chunkText text chunkSize overlap = .ok l ∧
      (∀ c ∈ l, c.endIndex = min (c.startIndex + chunkSize) text.length ∧
        c.text = (text.drop c.startIndex).take (c.endIndex - c.startIndex)) ∧
      (∃ last, l.getLast? = some last ∧ last.endIndex = text.length) ∧
      (∀ p, p < text.length → ∃ c ∈ l, c.startIndex ≤ p ∧ p < c.endIndex) := by
  have hlen : 0 < text.length := List.length_pos.mpr hne
  refine ⟨chunkLoopWF text chunkSize overlap hcs 0 0,
    chunkText_eq_WF text chunkSize overlap hcs hov, ?_, ?_, ?_⟩
  · intro c hc
    obtain ⟨-, -, hend, htext⟩ :=
      chunkLoopWF_mem text chunkSize overlap hcs text.length 0 0 (by omega) c hc
    exact ⟨hend, htext⟩
  · exact chunkLoopWF_last text chunkSize overlap hcs text.length 0 0 (by omega) hlen
  · intro p hp
    exact chunkLoopWF_cover text chunkSize overlap hcs text.length 0 0 p (by omega) (by omega) hp

/-- Witness for C10 at a concrete text with `chunkSize = 4`, `overlap = 1`. -/
theorem chunkText_slices_cover_witness :
    ∃ l, chunkText "docchat rag".toList 4 1 = .ok l ∧
      (∀ c ∈ l, c.endIndex = min (c.startIndex + 4) "docchat rag".toList.length ∧
        c.text = ("docchat rag".toList.drop c.startIndex).take (c.endIndex - c.startIndex)) ∧
      (∃ last, l.getLast? = some last ∧ last.endIndex = "docchat rag".toList.length) ∧
      (∀ p, p < "docchat rag".toList.length → ∃ c ∈ l, c.startIndex ≤ p ∧ p < c.endIndex) :=
  chunkText_slices_cover "docchat rag".toList 4 1 (by decide) (by norm_num) (by norm_num)

/-- A text of length 2500 chunked with `chunkSize = 1000`, `overlap = 200`
yields start indices `[0, 800, 1600, 2300]`: the third window is clipped at
2500, so the final advance is `2500 - 200 = 2300`. -/
theorem chunkStarts_len2500 (text : List Char) (h : text.length = 2500) :
    chunkStarts text 1000 200 = some [0, 800, 1600, 2300] := by
  have hne : ¬ text.length = 0 := by omega
  simp only [chunkStarts, chunkText, hne, if_false, maxChunksOf, h]
  norm_num
  rw [chunkLoop]
  norm_num [h, nextStart, List.length_take, List.length_drop]
  rw [chunkLoop]
  norm_num [h, nextStart, List.length_take, List.length_drop]
  rw [chunkLoop]
  norm_num [h, nextStart, List.length_take, List.length_drop]
  rw [chunkLoop]
  norm_num [h, nextStart, List.length_take, List.length_drop]
  rw [chunkLoop]
  norm_num [h, nextStart, List.length_take, List.length_drop]
  exact ⟨_, rfl, rfl⟩

/-- C2 (amended): chunking a text of exactly 2500 characters with
`chunkSize = 1000`, `overlap = 200` yields exactly 4 chunks whose `startIndex`
values are, in order, 0, 800, 1600, 2300. -/
theorem chunkText_2500_starts (text : List Char) (h : text.length = 2500) :
    chunkStarts text 1000 200 = some [0, 800, 1600, 2300] ∧
      ∃ l, chunkText text 1000 200 = .ok l ∧ l.length = 4 := by
  refine ⟨chunkStarts_len2500 text h, ?_⟩
  have hs := chunkStarts_len2500 text h
  unfold chunkStarts at hs
  cases hok : chunkText text 1000 200 with
  | error e => rw [hok] at hs; simp [Except.toOption] at hs
  | ok l =>
    refine ⟨l, rfl, ?_⟩
    rw [hok] at hs
    simp only [Except.toOption, Option.map_some] at hs
    have := congrArg List.length (Option.some_injective _ hs)
    simpa using this

/-- Counterexample to C2 as stated: at a concrete 2500-character text the
`startIndex` sequence is not `[0, 800, 1600, 2400]`. -/
theorem chunkText_2500_starts_cex :
    chunkStarts (List.replicate 2500 'a') 1000 200 ≠ some [0, 800, 1600, 2400] := by
  rw [chunkStarts_len2500 (List.replicate 2500 'a') (by rw [List.length_replicate])]
  simp

/-- Witness for C2 (amended) at the concrete text of 2500 letters `a`. -/
theorem chunkText_2500_starts_witness :
    chunkStarts (List.replicate 2500 'a') 1000 200 = some [0, 800, 1600, 2300] ∧
      ∃ l, chunkText (List.replicate 2500 'a') 1000 200 = .ok l ∧ l.length = 4 :=
  chunkText_2500_starts (List.replicate 2500 'a') (by rw [List.length_replicate])

theorem foldl_add_map {α : Type _} (g : α → ℝ) :
    ∀ (l : List α) (c : ℝ), l.foldl (fun acc x => acc + g x) c = c + (l.map g).sum := by
  intro l
  induction l with
  | nil => intro c; simp
  | cons x t ih =>
    intro c
    simp only [List.foldl_cons, List.map_cons, List.sum_cons]
    rw [ih (c + g x)]
    ring

theorem normAcc_eq_sumSq (v : List ℝ) : normAcc v = sumSq v := by
  unfold normAcc sumSq
  rw [foldl_add_map (fun x => x * x) v 0, zero_add]

theorem dotAcc_eq_sum (a b : List ℝ) :
    dotAcc a b = ((a.zip b).map (fun p => p.1 * p.2)).sum := by
  unfold dotAcc
  rw [foldl_add_map (fun p : ℝ × ℝ => p.1 * p.2) (a.zip b) 0, zero_add]

theorem zip_mul_comm : ∀ a b : List ℝ,
    (a.zip b).map (fun p => p.1 * p.2) = (b.zip a).map (fun p => p.1 * p.2) := by
  intro a
  induction a with
  | nil => intro b; cases b <;> simp
  | cons x t ih =>
    intro b
    cases b with
    | nil => simp
    | cons y u => simp [ih u, mul_comm]

theorem dotAcc_comm (a b : List ℝ) : dotAcc a b = dotAcc b a := by
  rw [dotAcc_eq_sum, dotAcc_eq_sum, zip_mul_comm]

theorem dotAcc_self (a : List ℝ) : dotAcc a a = sumSq a := by
  rw [dotAcc_eq_sum]
  unfold sumSq
  congr 1
  induction a with
  | nil => simp
  | cons x t ih => simp [ih]

theorem sumSq_nonneg (a : List ℝ) : 0 ≤ sumSq a := by
  unfold sumSq
  refine List.sum_nonneg ?_
  intro x hx
  obtain ⟨y, -, rfl⟩ := List.mem_map.mp hx
  exact mul_self_nonneg y

theorem cosineSimilarityVal_comm (a b : List ℝ) :
    cosineSimilarityVal a b = cosineSimilarityVal b a := by
  unfold cosineSimilarityVal
  rw [mul_comm (Real.sqrt (normAcc b)) (Real.sqrt (normAcc a)), dotAcc_comm b a]

/-- C8: cosine similarity is symmetric on equal-length vectors, is 0 whenever
either vector has zero norm (no division by zero), and is exactly 1 on any
vector of non-zero norm paired with itself (the floating-point tolerance of the
claim is not needed over `ℝ`). -/
theorem cosineSimilarity_spec :
    (∀ a b : List ℝ, a.length = b.length → cosineSimilarity a b = cosineSimilarity b a) ∧
    (∀ a b : List ℝ, a.length = b.length → (sumSq a = 0 ∨ sumSq b = 0) →
      cosineSimilarity a b = .ok 0) ∧
    (∀ a : List ℝ, sumSq a ≠ 0 → cosineSimilarity a a = .ok 1) := by
  refine ⟨?_, ?_, ?_⟩
  · intro a b h
    unfold cosineSimilarity
    rw [h, cosineSimilarityVal_comm]
  · intro a b h h0
    unfold cosineSimilarity
    rw [h]
    simp only [ne_eq, not_true_eq_false, if_neg, if_false]
    have hz : Real.sqrt (normAcc a) * Real.sqrt (normAcc b) = 0 := by
      rcases h0 with h0 | h0
      · rw [normAcc_eq_sumSq, h0, Real.sqrt_zero, zero_mul]
      · rw [normAcc_eq_sumSq b, h0, Real.sqrt_zero, mul_zero]
    unfold cosineSimilarityVal
    rw [if_pos hz]
  · intro a h
    unfold cosineSimilarity
    simp only [ne_eq, not_true_eq_false, if_false]
    unfold cosineSimilarityVal
    have hsq : Real.sqrt (normAcc a) * Real.sqrt (normAcc a) = sumSq a := by
      rw [normAcc_eq_sumSq]
      exact Real.mul_self_sqrt (sumSq_nonneg a)
    rw [hsq, if_neg h, dotAcc_self, div_self h]

theorem scoreChunks_ok (qv : List ℝ) :
    ∀ (l : List DocumentChunk) (r : List (DocumentChunk × ℝ)), scoreChunks qv l = .ok r →
      r = l.map (fun c => (c, cosineSimilarityVal qv c.vector)) := by
  intro l
  induction l with
  | nil =>
    intro r h
    unfold scoreChunks at h
    simp only [Except.ok.injEq] at h
    simp [← h]
  | cons c t ih =>
    intro r h
    unfold scoreChunks at h
    cases hcs : cosineSimilarity qv c.vector with
    | error e => rw [hcs] at h; cases h
    | ok s =>
      rw [hcs] at h
      cases hrest : scoreChunks qv t with
      | error e => rw [hrest] at h; cases h
      | ok tl =>
        rw [hrest] at h
        simp only [Except.ok.injEq] at h
        have hs : s = cosineSimilarityVal qv c.vector := by
          unfold cosineSimilarity at hcs
          split at hcs
          · cases hcs
          · simp only [Except.ok.injEq] at hcs; exact hcs.symm
        rw [← h, hs, ih tl hrest]
        simp

theorem scoreDescLE_trans (x y z : DocumentChunk × ℝ)
    (hxy : scoreDescLE x y = true) (hyz : scoreDescLE y z = true) : scoreDescLE x z = true := by
  simp only [scoreDescLE, decide_eq_true_eq] at hxy hyz ⊢
  exact le_trans hyz hxy

theorem scoreDescLE_total (x y : DocumentChunk × ℝ) :
    (scoreDescLE x y || scoreDescLE y x) = true := by
  simp only [scoreDescLE, Bool.or_eq_true, decide_eq_true_eq]
  exact le_total y.2 x.2

theorem searchScored_ok (qv : List ℝ) (docFilter : Option (List String))
    (db : List DocumentChunk) (sorted : List (DocumentChunk × ℝ))
    (h : searchScored qv docFilter db = .ok sorted) :
    sorted = ((candidatesOf docFilter db).map
        (fun c => (c, cosineSimilarityVal qv c.vector))).mergeSort scoreDescLE := by
  unfold searchScored at h
  by_cases hc : (candidatesOf docFilter db).length = 0
  · rw [if_pos hc] at h
    simp only [Except.ok.injEq] at h
    have hnil : candidatesOf docFilter db = [] := List.length_eq_zero.mp hc
    rw [← h, hnil]
    simp
  · rw [if_neg hc] at h
    cases hsc : scoreChunks qv (candidatesOf docFilter db) with
    | error e => rw [hsc] at h; cases h
    | ok scored =>
      rw [hsc] at h
      simp only [Except.map, Except.ok.injEq] at h
      rw [← h, scoreChunks_ok qv _ scored hsc]

/-- C3 (amended): every successful search returns at most `limit` chunks,
sorted by non-increasing cosine similarity to the query vector, with ties (and
in general any pair already ordered by score) kept in original insertion order
by the stable sort; when a non-empty `documentIdFilter` is supplied, only
chunks whose `documentId` is in the filter are candidates. -/
theorem searchSimilarChunks_spec (qv : List ℝ) (limit : Nat)
    (docFilter : Option (List String)) (db : List DocumentChunk)
    (out : List DocumentChunk)
    (h : searchSimilarChunks qv limit docFilter db = .ok out) :
    out.length ≤ limit ∧
    out.Pairwise (fun c d => cosineSimilarityVal qv d.vector ≤ cosineSimilarityVal qv c.vector) ∧
    (∀ ids, docFilter = some ids → ids ≠ [] → ∀ c ∈ out, c.documentId ∈ ids) ∧
    (∀ sorted, searchScored qv docFilter db = .ok sorted →
      ∀ p q : DocumentChunk × ℝ,
        [p, q].Sublist ((candidatesOf docFilter db).map
          (fun c => (c, cosineSimilarityVal qv c.vector))) →
        q.2 ≤ p.2 → [p, q].Sublist sorted) := by
  unfold searchSimilarChunks at h
  cases hss : searchScored qv docFilter db with
  | error e => rw [hss] at h; cases h
  | ok sorted =>
    rw [hss] at h
    simp only [Except.map, Except.ok.injEq] at h
    have hout : out = (sorted.take limit).map Prod.fst := h.symm
    have hsorted := searchScored_ok qv docFilter db sorted hss
    have hchar : ∀ x ∈ sorted, x.2 = cosineSimilarityVal qv x.1.vector := by
      intro x hx
      rw [hsorted, List.mem_mergeSort] at hx
      obtain ⟨c, -, rfl⟩ := List.mem_map.mp hx
      rfl
    refine ⟨?_, ?_, ?_, ?_⟩
    · rw [hout]
      simp only [List.length_map, List.length_take]
      omega
    · have hP : sorted.Pairwise (fun x y => scoreDescLE x y = true) := by
        rw [hsorted]
        exact List.sorted_mergeSort scoreDescLE_trans scoreDescLE_total _
      have hP2 : sorted.Pairwise
          (fun x y : DocumentChunk × ℝ =>
            cosineSimilarityVal qv y.1.vector ≤ cosineSimilarityVal qv x.1.vector) := by
        refine hP.imp_of_mem ?_
        intro x y hx hy hr
        rw [← hchar x hx, ← hchar y hy]
        simpa [scoreDescLE] using hr
      rw [hout, List.pairwise_map]
      exact List.Pairwise.sublist (List.take_sublist limit sorted) hP2
    · intro ids hf hne c hc
      rw [hout] at hc
      obtain ⟨x, hx, rfl⟩ := List.mem_map.mp hc
      have hx2 : x ∈ sorted := (List.take_sublist limit sorted).subset hx
      rw [hsorted, List.mem_mergeSort] at hx2
      obtain ⟨c0, hc0, heq⟩ := List.mem_map.mp hx2
      have hfst : x.1 = c0 := by rw [← heq]
      rw [hfst]
      subst hf
      have hc0b : c0 ∈ (if 0 < ids.length then
          db.filter (fun c => decide (c.documentId ∈ ids)) else db) := hc0
      rw [if_pos (List.length_pos.mpr hne)] at hc0b
      have := (List.mem_filter.mp hc0b).2
      exact of_decide_eq_true this
    · intro sorted2 hss2 p q hsub hle
      obtain rfl : sorted = sorted2 := by injection hss2
      rw [hsorted]
      refine List.pair_sublist_mergeSort scoreDescLE_trans scoreDescLE_total ?_ hsub
      simpa [scoreDescLE] using hle

/-- Witness for C3 (amended) at the empty store. -/
theorem searchSimilarChunks_spec_witness :
    ([] : List DocumentChunk).length ≤ 0 ∧
    List.Pairwise
      (fun c d : DocumentChunk =>
        cosineSimilarityVal [(1 : ℝ)] d.vector ≤ cosineSimilarityVal [(1 : ℝ)] c.vector)
      ([] : List DocumentChunk) ∧
    (∀ ids, (none : Option (List String)) = some ids → ids ≠ [] →
      ∀ c ∈ ([] : List DocumentChunk), c.documentId ∈ ids) ∧
    (∀ sorted, searchScored [(1 : ℝ)] none [] = .ok sorted →
      ∀ p q : DocumentChunk × ℝ,
        [p, q].Sublist ((candidatesOf none ([] : List DocumentChunk)).map
          (fun c => (c, cosineSimilarityVal [(1 : ℝ)] c.vector))) →
        q.2 ≤ p.2 → [p, q].Sublist sorted) :=
  searchSimilarChunks_spec [(1 : ℝ)] 0 none [] [] rfl

/-- A store with one chunk of document `"a"`. -/
def sampleChunk : DocumentChunk :=
  ⟨"a_0", "a", "doc", 0, ['x'], 0, 1, [(1 : ℝ)]⟩

/-- Counterexample to C3 as stated: with a supplied but empty filter list the
code drops the `WHERE` clause entirely, so a chunk whose `documentId` is in no
filter entry is returned. -/
theorem searchSimilarChunks_emptyFilter_cex :
    searchSimilarChunks [(1 : ℝ)] 1 (some []) [sampleChunk] = .ok [sampleChunk] ∧
      sampleChunk.documentId ∉ ([] : List String) := by
  constructor
  · simp [searchSimilarChunks, searchScored, candidatesOf, scoreChunks, cosineSimilarity,
      sampleChunk, Except.map, List.mergeSort_singleton]
  · simp

/-- C9: the classifier is a deterministic function that returns General exactly
when some template matches the lower-cased, trimmed question; in particular
"Summarize this document" is General and "What was the revenue in Q3?" is
Specific. -/
theorem isGeneralQuestion_spec :
    (∀ q : List Char, isGeneralQuestion q = true ↔
      ∃ p ∈ generalPatterns, matchFrom p (trimChars (q.map toLowerChar)) = true) ∧
    isGeneralQuestion "Summarize this document".toList = true ∧
    isGeneralQuestion "What was the revenue in Q3?".toList = false := by
  refine ⟨?_, by decide, by decide⟩
  intro q
  simp [isGeneralQuestion, List.any_eq_true]

/-- C4: for a General question with a non-empty document id list, the route
searches with `k = 25` and falls back to the first 50 chunks of the full dump
exactly when the search returns fewer than 10; with no ids (absent or the empty
list) the context is empty. -/
theorem retrieveContext_spec (question : List Char) (qv : List ℝ) (limit : Nat)
    (ids : List String) (db : List DocumentChunk)
    (hgen : isGeneralQuestion question = true) (hne : ids ≠ []) :
    (∀ cs, searchSimilarChunks qv 25 (some ids) db = .ok cs →
      retrieveContextChunks question qv limit (some ids) db =
        (if cs.length < 10 then (getAllDocumentChunks ids db).take 50 else cs)) ∧
    retrieveContextChunks question qv limit none db = [] ∧
    retrieveContextChunks question qv limit (some []) db = [] := by
  refine ⟨?_, rfl, rfl⟩
  intro cs hcs
  have hpos : 0 < ids.length := List.length_pos.mpr hne
  simp only [retrieveContextChunks]
  rw [if_pos hpos, if_pos hgen, hcs]

/-- Witness for C4: a General question over an empty store falls back to the
(empty) full dump. -/
theorem retrieveContext_spec_witness :
    (∀ cs, searchSimilarChunks [(1 : ℝ)] 25 (some ["d1"]) [] = .ok cs →
      retrieveContextChunks "Summarize this document".toList [(1 : ℝ)] 5 (some ["d1"]) [] =
        (if cs.length < 10 then (getAllDocumentChunks ["d1"] []).take 50 else cs)) ∧
    retrieveContextChunks "Summarize this document".toList [(1 : ℝ)] 5 none [] = [] ∧
    retrieveContextChunks "Summarize this document".toList [(1 : ℝ)] 5 (some []) [] = [] :=
  retrieveContext_spec "Summarize this document".toList [(1 : ℝ)] 5 ["d1"] []
    (by decide) (by decide)

theorem batches5_nil {α : Type _} : batches5 ([] : List α) = [] := by
  rw [batches5]

theorem listJoin_map_cons {α β : Type _} (f : List α → List β) (x : List α) (xs : List (List α)) :
    listJoin ((x :: xs).map f) = f x ++ listJoin (xs.map f) := rfl

theorem insertedChunks_eq_aux (embed : List Char → Option (List ℝ)) (d n : String) :
    ∀ (N : Nat) (chunks : List TextChunk), chunks.length ≤ N →
      insertedChunks embed d n chunks =
        chunks.filterMap (fun ch => (embed ch.text).map (mkStored d n ch)) := by
  intro N
  induction N with
  | zero =>
    intro chunks hlen
    have : chunks = [] := List.length_eq_zero.mp (by omega)
    subst this
    unfold insertedChunks
    rw [batches5_nil]
    rfl
  | succ N ih =>
    intro chunks hlen
    cases chunks with
    | nil =>
      unfold insertedChunks
      rw [batches5_nil]
      rfl
    | cons c t =>
      have hbatch : batches5 (c :: t) = ((c :: t).take 5) :: batches5 ((c :: t).drop 5) := by
        rw [batches5]
      unfold insertedChunks
      rw [hbatch, listJoin_map_cons]
      have hdrop : ((c :: t).drop 5).length ≤ N := by
        simp only [List.length_drop, List.length_cons]
        simp only [List.length_cons] at hlen
        omega
      have := ih ((c :: t).drop 5) hdrop
      unfold insertedChunks at this
      rw [this]
      unfold embedBatch
      rw [← List.filterMap_append, List.take_append_drop]

theorem insertedChunks_eq (embed : List Char → Option (List ℝ)) (d n : String)
    (chunks : List TextChunk) :
    insertedChunks embed d n chunks =
      chunks.filterMap (fun ch => (embed ch.text).map (mkStored d n ch)) :=
  insertedChunks_eq_aux embed d n chunks.length chunks (le_refl _)

theorem insertedChunks_docId (embed : List Char → Option (List ℝ)) (d n : String)
    (chunks : List TextChunk) (c : DocumentChunk)
    (hc : c ∈ insertedChunks embed d n chunks) : c.documentId = d := by
  rw [insertedChunks_eq] at hc
  obtain ⟨ch, -, hch⟩ := List.mem_filterMap.mp hc
  obtain ⟨v, -, rfl⟩ := Option.map_eq_some'.mp hch
  rfl

/-- C7: `indexDocument` first removes every chunk stored for the document and
then inserts exactly the rows of the chunks of the text whose embedding
succeeded (a failed embedding skips only that chunk); re-indexing with the same
text is idempotent, so it stores the same number of chunks for the document and
removes exactly the previous count. -/
theorem indexDocument_spec (embed : List Char → Option (List ℝ)) (db : List DocumentChunk)
    (d n : String) (text : List Char) :
    ((indexDocument embed db d n text).filter (fun c => !(c.documentId == d)) =
        db.filter (fun c => !(c.documentId == d))) ∧
    (∀ chunks, chunkText text 1000 200 = .ok chunks →
      (indexDocument embed db d n text).filter (fun c => c.documentId == d) =
        chunks.filterMap (fun ch => (embed ch.text).map (mkStored d n ch))) ∧
    (∀ chunks, chunkText text 1000 200 = .ok chunks →
      ∀ ch ∈ chunks, ∀ v, embed ch.text = some v →
        mkStored d n ch v ∈ indexDocument embed db d n text) ∧
    (indexDocument embed (indexDocument embed db d n text) d n text =
        indexDocument embed db d n text) ∧
    (((indexDocument embed (indexDocument embed db d n text) d n text).filter
        (fun c => c.documentId == d)).length =
      ((indexDocument embed db d n text).filter (fun c => c.documentId == d)).length) := by
  have hRR : ∀ l : List DocumentChunk,
      (l.filter (fun c => !(c.documentId == d))).filter (fun c => !(c.documentId == d)) =
        l.filter (fun c => !(c.documentId == d)) := by
    intro l
    rw [List.filter_filter]
    simp [Bool.and_self]
  have hRd : ∀ l : List DocumentChunk,
      (l.filter (fun c => !(c.documentId == d))).filter (fun c => c.documentId == d) = [] := by
    intro l
    refine List.filter_eq_nil_iff.mpr ?_
    intro a ha
    have := (List.mem_filter.mp ha).2
    simp only [Bool.not_eq_true'] at this
    simp [this]
  have hId : ∀ chunks,
      (insertedChunks embed d n chunks).filter (fun c => c.documentId == d) =
        insertedChunks embed d n chunks := by
    intro chunks
    refine List.filter_eq_self.mpr ?_
    intro a ha
    simp [insertedChunks_docId embed d n chunks a ha]
  have hIR : ∀ chunks,
      (insertedChunks embed d n chunks).filter (fun c => !(c.documentId == d)) = [] := by
    intro chunks
    refine List.filter_eq_nil_iff.mpr ?_
    intro a ha
    simp [insertedChunks_docId embed d n chunks a ha]
  cases hok : chunkText text 1000 200 with
  | error e =>
    have hidx : ∀ db2 : List DocumentChunk, indexDocument embed db2 d n text =
        db2.filter (fun c => !(c.documentId == d)) := by
      intro db2
      simp only [indexDocument, hok]
    have hidem : indexDocument embed (indexDocument embed db d n text) d n text =
        indexDocument embed db d n text := by
      rw [hidx db, hidx _, hRR]
    refine ⟨?_, ?_, ?_, hidem, by rw [hidem]⟩
    · rw [hidx db, hRR]
    · intro chunks hchunks; cases hchunks
    · intro chunks hchunks; cases hchunks
  | ok chunks0 =>
    by_cases h0 : chunks0 = []
    · subst h0
      have hidx : ∀ db2 : List DocumentChunk, indexDocument embed db2 d n text =
          db2.filter (fun c => !(c.documentId == d)) := by
        intro db2
        simp [indexDocument, hok]
      have hidem : indexDocument embed (indexDocument embed db d n text) d n text =
          indexDocument embed db d n text := by
        rw [hidx db, hidx _, hRR]
      refine ⟨?_, ?_, ?_, hidem, by rw [hidem]⟩
      · rw [hidx db, hRR]
      · intro chunks hchunks
        obtain rfl : ([] : List TextChunk) = chunks := by injection hchunks
        rw [hidx db, hRd]
        rfl
      · intro chunks hchunks
        obtain rfl : ([] : List TextChunk) = chunks := by injection hchunks
        intro ch hch
        cases hch
    · have hidx : ∀ db2 : List DocumentChunk, indexDocument embed db2 d n text =
          db2.filter (fun c => !(c.documentId == d)) ++ insertedChunks embed d n chunks0 := by
        intro db2
        simp only [indexDocument, hok, if_neg h0]
      have hidem : indexDocument embed (indexDocument embed db d n text) d n text =
          indexDocument embed db d n text := by
        rw [hidx db, hidx _, List.filter_append, hRR, hIR, List.append_nil]
      refine ⟨?_, ?_, ?_, hidem, by rw [hidem]⟩
      · rw [hidx db, List.filter_append, hRR, hIR, List.append_nil]
      · intro chunks hchunks
        obtain rfl : chunks0 = chunks := by injection hchunks
        rw [hidx db, List.filter_append, hRd, hId, List.nil_append, insertedChunks_eq]
      · intro chunks hchunks
        obtain rfl : chunks0 = chunks := by injection hchunks
        intro ch hch v hv
        rw [hidx db]
        refine List.mem_append_right _ ?_
        rw [insertedChunks_eq]
        exact List.mem_filterMap.mpr ⟨ch, hch, by rw [hv]; rfl⟩

theorem runChatAux_calls (oracle : Nat → Option ChatMsg) :
    ∀ (r it : Nat), it ≤ (runChatAux oracle it r).2 ∧ (runChatAux oracle it r).2 ≤ it + r := by
  intro r
  induction r with
  | zero => intro it; exact ⟨le_refl it, le_refl it⟩
  | succ r ih =>
    intro it
    cases horacle : oracle (it + 1) with
    | none =>
      simp only [runChatAux, horacle]
      omega
    | some m =>
      by_cases hm : m.toolCalls = []
      · simp only [runChatAux, horacle, if_pos hm]
        omega
      · simp only [runChatAux, horacle, if_neg hm]
        have := ih (it + 1)
        omega

theorem runChatAux_allTools (oracle : Nat → Option ChatMsg) :
    ∀ (r it : Nat), (∀ i, it < i → i ≤ it + r → ∃ m, oracle i = some m ∧ m.toolCalls ≠ []) →
      runChatAux oracle it r = ("", it + r) := by
  intro r
  induction r with
  | zero => intro it h; rfl
  | succ r ih =>
    intro it h
    obtain ⟨m, hm, hmt⟩ := h (it + 1) (by omega) (by omega)
    simp only [runChatAux, hm, if_neg hmt]
    have := ih (it + 1) (fun i h1 h2 => h i (by omega) (by omega))
    rw [this]
    congr 1
    omega

theorem runChatAux_congr (oracle oracle2 : Nat → Option ChatMsg)
    (h : ∀ i, i ≤ 5 → oracle i = oracle2 i) :
    ∀ (r it : Nat), it + r ≤ 5 → runChatAux oracle it r = runChatAux oracle2 it r := by
  intro r
  induction r with
  | zero => intro it hle; rfl
  | succ r ih =>
    intro it hle
    cases horacle : oracle2 (it + 1) with
    | none =>
      simp only [runChatAux, h (it + 1) (by omega), horacle]
    | some m =>
      by_cases hm : m.toolCalls = []
      · simp only [runChatAux, h (it + 1) (by omega), horacle, if_pos hm]
      · simp only [runChatAux, h (it + 1) (by omega), horacle, if_neg hm]
        exact ih (it + 1) (by omega)

theorem chatRounds_allTools (oracle : Nat → RoundResult) :
    ∀ (r it : Nat), (∀ i, it < i → i ≤ it + r → ∃ ds ts, oracle i = .reply ds ts ∧ ts ≠ []) →
      (chatRounds oracle it r).crashed = false ∧ (chatRounds oracle it r).calls = r := by
  intro r
  induction r with
  | zero => intro it h; exact ⟨rfl, rfl⟩
  | succ r ih =>
    intro it h
    obtain ⟨ds, ts, hor, hts⟩ := h (it + 1) (by omega) (by omega)
    have hrec := ih (it + 1) (fun i h1 h2 => h i (by omega) (by omega))
    simp only [chatRounds, hor, if_neg hts]
    exact ⟨hrec.1, by rw [hrec.2]⟩

theorem chatRounds_calls_le (oracle : Nat → RoundResult) :
    ∀ (r it : Nat), (chatRounds oracle it r).calls ≤ r := by
  intro r
  induction r with
  | zero => intro it; exact le_refl _
  | succ r ih =>
    intro it
    cases horacle : oracle (it + 1) with
    | crash ds =>
      simp only [chatRounds, horacle]
      omega
    | reply ds ts =>
      by_cases hts : ts = []
      · simp only [chatRounds, horacle, if_pos hts]
        omega
      · simp only [chatRounds, horacle, if_neg hts]
        have := ih (it + 1)
        omega

/-- The five tool-requesting rounds of the counterexample run. -/
def allToolsOracle : Nat → RoundResult := fun _ => .reply [] [WebCallResult.searchOk]

/-- The counterexample request: valid body and question, no documents, working
client, a model that requests a web search on every round. -/
def allToolsRequest : SSERequest := ⟨true, true, [], true, allToolsOracle⟩

/-- Counterexample to C5 as stated: in the streaming route, when the model
requests tools on all 5 rounds the stream ends with the `done` success event —
no `error` event and no fallback message is emitted. -/
theorem sse_roundLimit_cex :
    sseTrace allToolsRequest =
      [SSEEvent.thinking, SSEEvent.toolStart, SSEEvent.toolEnd, SSEEvent.toolStart,
        SSEEvent.toolEnd, SSEEvent.toolStart, SSEEvent.toolEnd, SSEEvent.toolStart,
        SSEEvent.toolEnd, SSEEvent.toolStart, SSEEvent.toolEnd, SSEEvent.done,
        SSEEvent.close] ∧
    SSEEvent.error ∉ sseTrace allToolsRequest := by
  constructor <;> decide

/-- C5 (amended): both chat loops issue at most 5 chat-completion calls and
never consult the model beyond round 5; when the model requests tools on all 5
rounds, the non-streaming route answers with the fixed fallback message after
exactly 5 calls, while the streaming route makes exactly 5 calls, does not
crash, and closes its stream with the `done` event (no fallback or error
message). -/
theorem chatLoop_bound_spec :
    (∀ oracle, (runChat oracle).2 ≤ 5) ∧
    (∀ oracle, (∀ i, 1 ≤ i → i ≤ 5 → ∃ m, oracle i = some m ∧ m.toolCalls ≠ []) →
      runChat oracle = (fallbackAnswer, 5)) ∧
    (∀ oracle oracle2, (∀ i, i ≤ 5 → oracle i = oracle2 i) →
      runChat oracle = runChat oracle2) ∧
    (∀ oracle (it r : Nat), (chatRounds oracle it r).calls ≤ r) ∧
    (∀ req : SSERequest, req.bodyOk = true → req.questionOk = true → req.clientOk = true →
      (∀ i, 1 ≤ i → i ≤ 5 → ∃ ds ts, req.oracle i = .reply ds ts ∧ ts ≠ []) →
      (chatRounds req.oracle 0 5).calls = 5 ∧
        (chatRounds req.oracle 0 5).crashed = false ∧
        sseTrace req =
          (if 0 < req.documentIds.length then [SSEEvent.toolStart, SSEEvent.toolEnd] else []) ++
            (chatRounds req.oracle 0 5).events ++ [SSEEvent.done, SSEEvent.close]) := by
  refine ⟨?_, ?_, ?_, ?_, ?_⟩
  · intro oracle
    have h := (runChatAux_calls oracle maxIterations 0).2
    simp only [maxIterations] at h
    simp only [runChat]
    split
    · show (runChatAux oracle 0 maxIterations).2 ≤ 5
      simp only [maxIterations]
      omega
    · show (runChatAux oracle 0 maxIterations).2 ≤ 5
      simp only [maxIterations]
      omega
  · intro oracle h
    unfold runChat
    have hrun : runChatAux oracle 0 maxIterations = ("", 5) := by
      have := runChatAux_allTools oracle 5 0 (fun i h1 h2 => h i (by omega) (by omega))
      simpa [maxIterations] using this
    rw [hrun]
    simp [maxIterations]
  · intro oracle oracle2 h
    unfold runChat
    rw [runChatAux_congr oracle oracle2 h maxIterations 0 (by simp [maxIterations])]
  · intro oracle it r
    exact chatRounds_calls_le oracle r it
  · intro req hb hq hc h
    obtain ⟨hcr, hcalls⟩ :=
      chatRounds_allTools req.oracle 5 0 (fun i h1 h2 => h i (by omega) (by omega))
    refine ⟨hcalls, hcr, ?_⟩
    have h1 : ¬ (req.bodyOk = false) := by rw [hb]; simp
    have h2 : ¬ (req.questionOk = false) := by rw [hq]; simp
    have h3 : ¬ (req.clientOk = false) := by rw [hc]; simp
    unfold sseTrace
    rw [if_neg h1, if_neg h2, if_neg h3, hcr]
    rfl

theorem listJoin_mem {α : Type _} (x : α) :
    ∀ ls : List (List α), x ∈ listJoin ls → ∃ l ∈ ls, x ∈ l := by
  intro ls
  induction ls with
  | nil => intro h; cases h
  | cons l ls ih =>
    intro h
    rcases List.mem_append.mp h with h | h
    · exact ⟨l, List.mem_cons_self _ _, h⟩
    · obtain ⟨l2, hl2, hx⟩ := ih h
      exact ⟨l2, List.mem_cons_of_mem _ hl2, hx⟩

theorem webCallEvents_mem (w : WebCallResult) (e : SSEEvent) (he : e ∈ webCallEvents w) :
    e = .toolStart ∨ e = .toolEnd := by
  cases w <;> simp [webCallEvents] at he <;> tauto

theorem contentEvents_mem (ds : List String) (e : SSEEvent) (he : e ∈ contentEvents ds) :
    e = .content := by
  unfold contentEvents at he
  obtain ⟨-, -, h⟩ := List.mem_map.mp he
  exact h.symm

theorem thinkEvents_mem (b : Prop) [Decidable b] (e : SSEEvent)
    (he : e ∈ (if b then [SSEEvent.thinking] else [])) : e = .thinking := by
  split at he
  · simpa using he
  · cases he

theorem chatRounds_events_kinds (oracle : Nat → RoundResult) :
    ∀ (r it : Nat) (e : SSEEvent), e ∈ (chatRounds oracle it r).events →
      e = .thinking ∨ e = .content ∨ e = .toolStart ∨ e = .toolEnd := by
  intro r
  induction r with
  | zero => intro it e he; cases he
  | succ r ih =>
    intro it e he
    cases horacle : oracle (it + 1) with
    | crash ds =>
      simp only [chatRounds, horacle] at he
      rcases List.mem_append.mp he with h | h
      · exact Or.inl (thinkEvents_mem _ e h)
      · exact Or.inr (Or.inl (contentEvents_mem ds e h))
    | reply ds ts =>
      by_cases hts : ts = []
      · simp only [chatRounds, horacle, if_pos hts] at he
        rcases List.mem_append.mp he with h | h
        · exact Or.inl (thinkEvents_mem _ e h)
        · exact Or.inr (Or.inl (contentEvents_mem ds e h))
      · simp only [chatRounds, horacle, if_neg hts] at he
        rcases List.mem_append.mp he with h | h
        · rcases List.mem_append.mp h with h | h
          · rcases List.mem_append.mp h with h | h
            · exact Or.inl (thinkEvents_mem _ e h)
            · exact Or.inr (Or.inl (contentEvents_mem ds e h))
          · obtain ⟨l, hl, hx⟩ := listJoin_mem e _ h
            obtain ⟨w, -, rfl⟩ := List.mem_map.mp hl
            rcases webCallEvents_mem w e hx with h | h
            · exact Or.inr (Or.inr (Or.inl h))
            · exact Or.inr (Or.inr (Or.inr h))
        · exact ih (it + 1) e h

/-- C6: every trace of the streaming handler consists of non-terminal events
followed by exactly one terminal event (`done` or `error`, never both) and then
the close of the stream; nothing follows the close. -/
theorem sseTrace_single_terminal (req : SSERequest) :
    ∃ pre t, sseTrace req = pre ++ [t, SSEEvent.close] ∧
      (t = SSEEvent.done ∨ t = SSEEvent.error) ∧
      ∀ e ∈ pre, e ≠ SSEEvent.done ∧ e ≠ SSEEvent.error ∧ e ≠ SSEEvent.close := by
  unfold sseTrace
  by_cases hb : req.bodyOk = false
  · rw [if_pos hb]
    exact ⟨[], .error, rfl, Or.inr rfl, by simp⟩
  · rw [if_neg hb]
    by_cases hq : req.questionOk = false
    · rw [if_pos hq]
      exact ⟨[], .error, rfl, Or.inr rfl, by simp⟩
    · rw [if_neg hq]
      have hdocMem : ∀ e ∈ (if 0 < req.documentIds.length then
          [SSEEvent.toolStart, SSEEvent.toolEnd] else []),
          e = SSEEvent.toolStart ∨ e = SSEEvent.toolEnd := by
        intro e he
        by_cases hl : 0 < req.documentIds.length
        · rw [if_pos hl] at he
          simp only [List.mem_cons, List.not_mem_nil, or_false] at he
          exact he
        · rw [if_neg hl] at he
          cases he
      by_cases hc : req.clientOk = false
      · rw [if_pos hc]
        refine ⟨_, .error, rfl, Or.inr rfl, ?_⟩
        intro e he
        rcases hdocMem e he with rfl | rfl <;> simp
      · rw [if_neg hc]
        cases hcr : (chatRounds req.oracle 0 5).crashed with
        | true =>
          refine ⟨(if 0 < req.documentIds.length then
              [SSEEvent.toolStart, SSEEvent.toolEnd] else []) ++
              (chatRounds req.oracle 0 5).events, .error, rfl,
            Or.inr rfl, ?_⟩
          intro e he
          rcases List.mem_append.mp he with h | h
          · rcases hdocMem e h with rfl | rfl <;> simp
          · rcases chatRounds_events_kinds req.oracle 5 0 e h with rfl | rfl | rfl | rfl <;> simp
        | false =>
          refine ⟨(if 0 < req.documentIds.length then
              [SSEEvent.toolStart, SSEEvent.toolEnd] else []) ++
              (chatRounds req.oracle 0 5).events, .done, rfl,
            Or.inl rfl, ?_⟩
          intro e he
          rcases List.mem_append.mp he with h | h
          · rcases hdocMem e h with rfl | rfl <;> simp
          · rcases chatRounds_events_kinds req.oracle 5 0 e h with rfl | rfl | rfl | rfl <;> simp

end DocChat
